import Mathlib

/-!
Verification of the image-transform cores of this repository.

Embedding conventions:

* JavaScript numbers are modelled as exact rationals (`ℚ`).  All arithmetic
  the modelled code performs on in-range values is exact in IEEE doubles as
  well; the two decimal constants `0.15` and `0.25` are modelled by the exact
  rationals `15/100` and `25/100`.  Every concrete counterexample below was
  additionally checked to behave identically under IEEE double semantics.
* An `ImageData.data` buffer (a `Uint8ClampedArray`) is modelled as a total
  function `ℕ → ℕ` together with its length `width*height*4`.  JavaScript
  typed-array semantics are kept faithfully:
  - reading `data[q]` for an index `q` that is not a canonical non-negative
    integer below the length yields `undefined`, modelled as `none`;
  - arithmetic involving `undefined` yields `NaN`; a `NaN`-tainted
    accumulator is modelled as `none`;
  - writing `data[q] = v` is silently dropped unless `q` is an integer index
    in range; a stored value is converted by `ToUint8Clamp` (clamp to
    `[0,255]`, then round half to even); `NaN` stores `0`.
* Fallible control flow is modelled with `Except`; DOM state touched by an
  event handler is modelled as explicit state passed in and out.
-/

/-- JavaScript `ToUint8Clamp` conversion applied when storing into a
`Uint8ClampedArray`: `NaN` (modelled as `none`) becomes `0`, values are
clamped to `[0,255]` and otherwise rounded to the nearest integer, ties to
even. -/
def toUint8Clamp : Option ℚ → ℕ
  | none => 0
  | some v =>
    if v ≤ 0 then 0
    else if 255 ≤ v then 255
    else
      let f := (⌊v⌋).toNat
      let r := v - ⌊v⌋
      if r < 1/2 then f
      else if 1/2 < r then f + 1
      else if f % 2 = 0 then f else f + 1

/-- A rational is a valid index into a typed array of length `len` iff it is
an integer in `[0, len)`. -/
def isIdx (len : ℕ) (q : ℚ) : Prop := q.den = 1 ∧ 0 ≤ q.num ∧ q.num < (len : ℤ)

instance (len : ℕ) (q : ℚ) : Decidable (isIdx len q) := by
  unfold isIdx; infer_instance

/-- Reading `data[q]` from a typed array: `undefined` (`none`) off the valid
integer index range. -/
def tRead (len : ℕ) (d : ℕ → ℕ) (q : ℚ) : Option ℚ :=
  if isIdx len q then some (d q.num.toNat) else none

/-- Writing `data[q] = v` to a typed array: dropped off the valid integer
index range, value converted by `toUint8Clamp`. -/
def tWrite (len : ℕ) (d : ℕ → ℕ) (q : ℚ) (v : Option ℚ) : ℕ → ℕ :=
  if isIdx len q then Function.update d q.num.toNat (toUint8Clamp v) else d

/-- JavaScript addition where `none` stands for `NaN`/`undefined` taint. -/
def optAdd : Option ℚ → Option ℚ → Option ℚ
  | some a, some b => some (a + b)
  | _, _ => none

/-- JavaScript division of the accumulator by the sample count (`NaN`
propagates). -/
def optDiv (v : Option ℚ) (c : ℕ) : Option ℚ := v.map (fun a => a / (c : ℚ))

/-- A decoded RGBA raster image: dimensions plus a byte buffer in row-major
RGBA order (byte `((y*width+x)*4 + c`). -/
structure Image where
  width : ℕ
  height : ℕ
  data : ℕ → ℕ

/-- The 3×3 neighborhood offsets `(dy, dx)`, in the iteration order of the
source's two nested loops (`script.js:241-242`). -/
def neighborOffsets : List (ℤ × ℤ) :=
  [(-1,-1),(-1,0),(-1,1),(0,-1),(0,0),(0,1),(1,-1),(1,0),(1,1)]

/-- Accumulator of the neighborhood sampling loop: the three channel sums
(`none` = `NaN`) and the neighbor count (`script.js:239`). -/
structure SampleAcc where
  r : Option ℚ
  g : Option ℚ
  b : Option ℚ
  count : ℕ

/-- One iteration of the 3×3 sampling loop of `removeWatermark`
(`script.js:241-252`): a neighbor at `(sampleY+dy, x+dx)` qualifies when its
row lies in `[0, startY)` and its column in `[0, width)`; its RGB bytes are
then accumulated. -/
def sampleStep (W len : ℕ) (d : ℕ → ℕ) (startY x sampleY : ℚ)
    (acc : SampleAcc) (o : ℤ × ℤ) : SampleAcc :=
  let ny := sampleY + (o.1 : ℚ)
  let nx := x + (o.2 : ℚ)
  if 0 ≤ ny ∧ ny < startY ∧ 0 ≤ nx ∧ nx < (W : ℚ) then
    let nIdx := (ny * (W : ℚ) + nx) * 4
    { r := optAdd acc.r (tRead len d nIdx)
      g := optAdd acc.g (tRead len d (nIdx + 1))
      b := optAdd acc.b (tRead len d (nIdx + 2))
      count := acc.count + 1 }
  else acc

/-- Body of the per-pixel fill of `removeWatermark` (`script.js:230-261`):
mirror the vertical offset above the rectangle top, average the qualifying
3×3 neighborhood, and when at least one neighbor qualified store the three
channel means and an alpha of 255. -/
def fillPixel (W H : ℕ) (startY y x : ℚ) (d : ℕ → ℕ) : ℕ → ℕ :=
  let len := W * H * 4
  let idx := (y * (W : ℚ) + x) * 4
  let sampleY := max 0 (startY - (y - startY) - 1)
  if 0 ≤ sampleY then
    let acc := neighborOffsets.foldl (sampleStep W len d startY x sampleY)
      ⟨some 0, some 0, some 0, 0⟩
    if 0 < acc.count then
      let d1 := tWrite len d idx (optDiv acc.r acc.count)
      let d2 := tWrite len d1 (idx + 1) (optDiv acc.g acc.count)
      let d3 := tWrite len d2 (idx + 2) (optDiv acc.b acc.count)
      tWrite len d3 (idx + 3) (some 255)
    else d
  else d

/-- The double loop of `removeWatermark` (`script.js:228-263`):
`for (let y = startY; y < H; y++) for (let x = startX; x < W; x++)`.
The `y` values visited are `startY + k` for `k < ⌈H - startY⌉`, and likewise
for `x`. -/
def fillLoop (W H : ℕ) (startX startY : ℚ) (d0 : ℕ → ℕ) : ℕ → ℕ :=
  (List.range (⌈(H : ℚ) - startY⌉.toNat)).foldl (fun d (k : ℕ) =>
    (List.range (⌈(W : ℚ) - startX⌉.toNat)).foldl (fun d' (j : ℕ) =>
      fillPixel W H startY (startY + (k : ℚ)) (startX + (j : ℚ)) d') d) d0

/-- Watermark-region height (`script.js:217`):
`Math.min(100, img.height * 0.15)`. -/
def watermarkHeight (H : ℕ) : ℚ := min 100 ((H : ℚ) * (15/100))

/-- Watermark-region width (`script.js:218`):
`Math.min(150, img.width * 0.25)`. -/
def watermarkWidth (W : ℕ) : ℚ := min 150 ((W : ℚ) * (25/100))

/-- The region filler `removeWatermark` (`script.js:199-269`): draws the
image to a fresh canvas of identical dimensions, then fills the bottom-right
rectangle starting at `(W - watermarkWidth, H - watermarkHeight)` in place. -/
def removeWatermark (img : Image) : Image :=
  let startX := (img.width : ℚ) - watermarkWidth img.width
  let startY := (img.height : ℚ) - watermarkHeight img.height
  { width := img.width
    height := img.height
    data := fillLoop img.width img.height startX startY img.data }

/-- Row of the pixel that byte `n` belongs to. -/
def pixRow (W n : ℕ) : ℕ := n / 4 / W

/-- Column of the pixel that byte `n` belongs to. -/
def pixCol (W n : ℕ) : ℕ := n / 4 % W

/-- Byte `n` lies inside the target rectangle with top-left pixel
`(sX, sY)` of a `W × H` image. -/
def inRect (W H sX sY n : ℕ) : Prop :=
  n < W * H * 4 ∧ sY ≤ pixRow W n ∧ sX ≤ pixCol W n

instance (W H sX sY n : ℕ) : Decidable (inRect W H sX sY n) := by
  unfold inRect; infer_instance

/-- The mirrored source row of the spec:
`sourceRow = max(0, rectTop − (y − rectTop) − 1)`. -/
def sourceRow (sY row : ℕ) : ℤ := max 0 ((sY : ℤ) - ((row : ℤ) - (sY : ℤ)) - 1)

/-- A neighborhood offset qualifies when the sampled pixel lies in a row in
`[0, rectTop)` and a column in `[0, W)`. -/
def qualifies (W sY : ℕ) (sR : ℤ) (col : ℕ) (o : ℤ × ℤ) : Prop :=
  0 ≤ sR + o.1 ∧ sR + o.1 < (sY : ℤ) ∧ 0 ≤ (col : ℤ) + o.2 ∧ (col : ℤ) + o.2 < (W : ℤ)

instance (W sY : ℕ) (sR : ℤ) (col : ℕ) (o : ℤ × ℤ) :
    Decidable (qualifies W sY sR col o) := by
  unfold qualifies; infer_instance

/-- The qualifying 3×3 neighborhood offsets around `(sR, col)`. -/
def qualNeighbors (W sY : ℕ) (sR : ℤ) (col : ℕ) : List (ℤ × ℤ) :=
  neighborOffsets.filter fun o => decide (qualifies W sY sR col o)

/-- Sum of channel `c` of the input buffer over a list of neighborhood
offsets around `(sR, col)`. -/
def neighborSum (W : ℕ) (d0 : ℕ → ℕ) (sR : ℤ) (col c : ℕ)
    (l : List (ℤ × ℤ)) : ℕ :=
  (l.map fun o =>
    d0 (((sR + o.1) * (W : ℤ) + ((col : ℤ) + o.2)) * 4 + (c : ℤ)).toNat).sum

/-- The value the fill assigns to byte `n` of a pixel inside the rectangle,
computed purely from the original input buffer `d0`. -/
def pureVal (W sY : ℕ) (d0 : ℕ → ℕ) (n : ℕ) : ℕ :=
  let row := pixRow W n
  let col := pixCol W n
  let sR := sourceRow sY row
  let q := qualNeighbors W sY sR col
  if 0 < q.length then
    if n % 4 = 3 then 255
    else toUint8Clamp (some ((neighborSum W d0 sR col (n % 4) q : ℚ) / (q.length : ℚ)))
  else d0 n

/-- Pure two-buffer reference implementation of the region fill: every byte
inside the rectangle is computed from the original input buffer alone and
every other byte is copied through.  No iteration order appears in this
definition. -/
def pureFill (W H sX sY : ℕ) (d0 : ℕ → ℕ) : ℕ → ℕ := fun n =>
  if inRect W H sX sY n then pureVal W sY d0 n else d0 n

/-- Buffer state after the row-major fill has processed exactly the
rectangle pixels with linear pixel index below `lim`. -/
def doneAt (W H sX sY lim : ℕ) (d0 : ℕ → ℕ) : ℕ → ℕ := fun n =>
  if inRect W H sX sY n ∧ n / 4 < lim then pureVal W sY d0 n else d0 n

/-- Contract of the external primitive `threshold(src, cutoff, maxValue)`
with the `THRESH_BINARY` mode used by the adapter (spec section 6 interface;
OpenCV's documented semantics): an output sample is `maxValue` where the
input sample is strictly greater than `cutoff`, and `0` otherwise. -/
def thresholdBinary (cutoff maxVal v : ℕ) : ℕ := if cutoff < v then maxVal else 0

/-- The adapter's mask thresholding step
(`src/airemove/script.js:87`): `cv.threshold(maskGray, maskBin, 1, 255,
cv.THRESH_BINARY)`, applied to one grayscale intensity. -/
def maskThreshold (v : ℕ) : ℕ := thresholdBinary 1 255 v

/-- A 2D point with rational coordinates (`getCanvasPoint` result). -/
structure Pt where
  x : ℚ
  y : ℚ
deriving DecidableEq

/-- The stamps painted by `drawLine` (`src/airemove/script.js:44-54`).
`dist` is the value of `Math.sqrt(dx*dx + dy*dy)` computed by the source;
since a square root is irrational in general it is passed explicitly here,
and the theorems constrain it by `0 ≤ dist` and `dist^2 = dx^2 + dy^2`.
The loop `for (let i = 0; i <= steps; i++)` paints `steps + 1` brush stamps
at parameters `t = i/steps` (with `t = 0` when `steps = 0`). -/
def drawLineStamps (a b : Pt) (brush dist : ℚ) : List Pt :=
  let dx := b.x - a.x
  let dy := b.y - a.y
  let step := max 1 (brush / 3)
  let steps := (⌈dist / step⌉).toNat
  (List.range (steps + 1)).map fun (i : ℕ) =>
    let t : ℚ := if steps = 0 then 0 else (i : ℚ) / (steps : ℚ)
    ⟨a.x + dx * t, a.y + dy * t⟩

/-- JavaScript `Math.round`: round half toward positive infinity. -/
def jsRound (q : ℚ) : ℤ := ⌊q + 1/2⌋

/-- Canvas dimensions set by `renderImage` (`src/airemove/script.js:58-72`):
returns the (width, height) assigned to the image canvas and to the mask
canvas respectively. -/
def renderImage (naturalW naturalH : ℕ) : (ℕ × ℕ) × (ℕ × ℕ) :=
  let scale : ℚ := min ((960 : ℚ) / (naturalW : ℚ)) (min ((640 : ℚ) / (naturalH : ℚ)) 1)
  let w : ℕ := max 1 (jsRound ((naturalW : ℚ) * scale)).toNat
  let h : ℕ := max 1 (jsRound ((naturalH : ℚ) * scale)).toNat
  ((w, h), (w, h))

/-- User-visible status outcomes of the remove-button handler
(`src/airemove/script.js:221-243`); the constructors stand for the distinct
status strings the handler writes. -/
inductive RemStatus where
  | notReady
  | done
  | failed
  | unchanged
deriving DecidableEq

/-- The remove-button click handler (`src/airemove/script.js:221-243`),
modelled as a total function on the relevant state: `imgLoaded` is the truth
value of `state.img`, `cvReady` the readiness test of the external
primitive, `run` the outcome of `inpaintToCanvas` followed by drawing
`outCanvas` onto the image canvas (its `Except.ok` payload is the new image
canvas content), and `imgCanvas` the content of the currently displayed
image canvas.  Returns the status surfaced and the final image-canvas
content.  Totality of this function models the fact that the handler
catches every processing error and never throws; `RemStatus.unchanged`
models the early `return` that leaves the status text untouched. -/
def btnRemoveClick {α : Type} (imgLoaded cvReady : Bool)
    (run : Except Unit α) (imgCanvas : α) : RemStatus × α :=
  if imgLoaded = false then (RemStatus.unchanged, imgCanvas)
  else if cvReady = false then (RemStatus.notReady, imgCanvas)
  else
    match run with
    | Except.ok res => (RemStatus.done, res)
    | Except.error _ => (RemStatus.failed, imgCanvas)

/-- The six temporary native `Mat` handles allocated by `inpaintToCanvas`
(`src/airemove/script.js:80-97`). -/
inductive Mat where
  | srcRgba
  | srcRgb
  | maskRgba
  | maskGray
  | maskBin
  | dst
deriving DecidableEq

/-- The external-primitive calls inside `inpaintToCanvas` that can raise. -/
inductive CvOp where
  | cvtColorRgb
  | cvtColorGray
  | thresholdOp
  | inpaintOp
  | imshowOp
deriving DecidableEq

/-- Resource state of one `inpaintToCanvas` invocation: which `Mat` handles
have been allocated, which have been released by `.delete()`, and whether
the output canvas has been written. -/
structure MatState where
  allocated : List Mat
  deleted : List Mat
  outWritten : Bool
deriving DecidableEq

/-- Straight-line resource trace of `inpaintToCanvas`
(`src/airemove/script.js:73-98`).  `fails op = true` means the external call
`op` throws; a throw propagates immediately (the function has no
`try`/`finally`), carrying the `MatState` at the moment of the throw.
Allocation order and the trailing block of six `.delete()` calls follow the
source line by line. -/
def inpaintToCanvasMats (fails : CvOp → Bool) : Except MatState MatState :=
  let s0 : MatState := ⟨[Mat.srcRgba, Mat.srcRgb], [], false⟩
  if fails CvOp.cvtColorRgb then Except.error s0 else
  let s1 : MatState := ⟨s0.allocated ++ [Mat.maskRgba, Mat.maskGray], [], false⟩
  if fails CvOp.cvtColorGray then Except.error s1 else
  let s2 : MatState := ⟨s1.allocated ++ [Mat.maskBin], [], false⟩
  if fails CvOp.thresholdOp then Except.error s2 else
  let s3 : MatState := ⟨s2.allocated ++ [Mat.dst], [], false⟩
  if fails CvOp.inpaintOp then Except.error s3 else
  if fails CvOp.imshowOp then Except.error s3 else
  let s4 : MatState := ⟨s3.allocated, [], true⟩
  Except.ok { s4 with deleted := [Mat.srcRgba, Mat.srcRgb, Mat.maskRgba,
    Mat.maskGray, Mat.maskBin, Mat.dst] }

/-- All six temporary handles, in allocation order. -/
def allMats : List Mat :=
  [Mat.srcRgba, Mat.srcRgb, Mat.maskRgba, Mat.maskGray, Mat.maskBin, Mat.dst]

/-- A 4×20 test image whose red channel is 1 at pixels (15,2), (15,3) and
2 at pixels (16,2), (16,3) (bytes 248, 252, 264, 268), zero elsewhere.
The 3×3 average sampled for the rectangle pixel (17,3) is then 6/4 = 1.5. -/
def c2Image : Image :=
  ⟨4, 20, fun n => if n = 248 ∨ n = 252 then 1 else if n = 264 ∨ n = 268 then 2 else 0⟩

example : toUint8Clamp (some (6/4)) = 2 := by with_unfolding_all rfl
example : toUint8Clamp (some (5/2)) = 2 := by with_unfolding_all rfl
example : toUint8Clamp none = 0 := rfl
example : (removeWatermark ⟨4, 10, fun _ => 0⟩).data 151 = 255 := by
  with_unfolding_all rfl
example : (removeWatermark ⟨5, 10, fun _ => 0⟩).data 199 = 0 := by
  with_unfolding_all rfl
example : (removeWatermark ⟨4, 20, fun n =>
    if n = 248 ∨ n = 252 then 1 else if n = 264 ∨ n = 268 then 2 else 0⟩).data 284 = 2 := by
  with_unfolding_all rfl

/-- Helper: the region width never exceeds the image width. -/
theorem watermarkWidth_le (W : ℕ) : watermarkWidth W ≤ (W : ℚ) := by
  refine le_trans (min_le_right _ _) ?_
  calc (W : ℚ) * (25/100) ≤ (W : ℚ) * 1 :=
        mul_le_mul_of_nonneg_left (by norm_num) (by positivity)
    _ = (W : ℚ) := mul_one _

/-- Helper: the region height never exceeds the image height. -/
theorem watermarkHeight_le (H : ℕ) : watermarkHeight H ≤ (H : ℚ) := by
  refine le_trans (min_le_right _ _) ?_
  calc (H : ℚ) * (15/100) ≤ (H : ℚ) * 1 :=
        mul_le_mul_of_nonneg_left (by norm_num) (by positivity)
    _ = (H : ℚ) := mul_one _

/-- C3: the target rectangle has height `min(100, 0.15·H)` and width
`min(150, 0.25·W)`, starts at `(W − width, H − height)` (the expressions
`removeWatermark` passes to its fill loop), those dimensions never exceed
the two min-bounds, and the rectangle lies entirely inside the image:
its start coordinates are non-negative and start + extent equals the image
extent in both axes. -/
theorem c3_region_geometry (W H : ℕ) :
    watermarkHeight H = min 100 ((H : ℚ) * (15/100)) ∧
    watermarkWidth W = min 150 ((W : ℚ) * (25/100)) ∧
    watermarkHeight H ≤ 100 ∧
    watermarkHeight H ≤ (H : ℚ) * (15/100) ∧
    watermarkWidth W ≤ 150 ∧
    watermarkWidth W ≤ (W : ℚ) * (25/100) ∧
    0 ≤ (W : ℚ) - watermarkWidth W ∧
    0 ≤ (H : ℚ) - watermarkHeight H ∧
    ((W : ℚ) - watermarkWidth W) + watermarkWidth W = (W : ℚ) ∧
    ((H : ℚ) - watermarkHeight H) + watermarkHeight H = (H : ℚ) := by
  refine ⟨rfl, rfl, min_le_left _ _, min_le_right _ _, min_le_left _ _,
    min_le_right _ _, ?_, ?_, by ring, by ring⟩
  · have h := watermarkWidth_le W
    linarith
  · have h := watermarkHeight_le H
    linarith

/-- C5 counterexample: with cutoff 1 and maximum value 255, the adapter's
threshold step maps the non-zero intensity 1 to 0, not to 255, so an
anti-aliased intensity of 1 and an intensity of 255 are not treated
identically, contrary to the claim. -/
theorem c5_threshold_counterexample :
    maskThreshold 1 = 0 ∧ maskThreshold 255 = 255 ∧
    maskThreshold 1 ≠ maskThreshold 255 ∧ maskThreshold 0 = 0 := by
  decide

/-- C5 amended: the thresholding step with cutoff 1 and maximum value 255
maps every intensity strictly greater than 1 to the fully-selected value
255 and every intensity of at most 1 — including intensity 1 — to 0, and
its output is strictly binary. -/
theorem c5_threshold_amended (v : ℕ) :
    (2 ≤ v → maskThreshold v = 255) ∧
    (v ≤ 1 → maskThreshold v = 0) ∧
    (maskThreshold v = 0 ∨ maskThreshold v = 255) := by
  unfold maskThreshold thresholdBinary
  by_cases h : 1 < v <;> simp [h] <;> omega

/-- Witness for C5 amended at intensities 2 and 1. -/
theorem c5_threshold_amended_witness :
    maskThreshold 2 = 255 ∧ maskThreshold 1 = 0 :=
  ⟨(c5_threshold_amended 2).1 (by decide), (c5_threshold_amended 1).2.1 (by decide)⟩

/-- C6: when the external primitive is not ready the remove handler
surfaces the not-ready status and leaves the image canvas untouched (the
model's totality reflects that nothing is thrown), and when the primitive
call errors the handler surfaces the failure status and the image canvas is
byte-identical to what was rendered before; on success the canvas is
replaced by the inpainted output. -/
theorem c6_failure_semantics {α : Type} (r : Except Unit α) (c : α) :
    btnRemoveClick true false r c = (RemStatus.notReady, c) ∧
    btnRemoveClick true true (Except.error ()) c = (RemStatus.failed, c) ∧
    (∀ res : α, btnRemoveClick true true (Except.ok res) c = (RemStatus.done, res)) :=
  ⟨rfl, rfl, fun _ => rfl⟩

/-- C7: on the success path `inpaintToCanvas` releases all six Mat handles,
but on the failure path — here `cv.inpaint` throwing — the function exits
with all six handles allocated and none released, because the six
`.delete()` calls sit after the last fallible call with no `try`/`finally`.
This contradicts the claim (and the spec's requirement) that the handles
are released on both paths. -/
theorem c7_mat_release_trace :
    inpaintToCanvasMats (fun _ => false) = Except.ok ⟨allMats, allMats, true⟩ ∧
    inpaintToCanvasMats (fun op => decide (op = CvOp.inpaintOp)) =
      Except.error ⟨allMats, [], false⟩ ∧
    ([] : List Mat) ≠ allMats := by
  refine ⟨rfl, rfl, by decide⟩

/-- C8 counterexample: for the points `(0,0)` and `(3,0)` with brush size 3
the distance is 3 (indeed `3² = 3² + 0²`), the claimed stamp count
`ceil(dist / max(1, brush/3))` is 3, but `drawLine` paints 4 stamps — the
loop runs from `i = 0` to `i = steps` inclusive. -/
theorem c8_stamp_count_counterexample :
    (3:ℚ)^2 = ((3:ℚ) - 0)^2 + ((0:ℚ) - 0)^2 ∧
    (drawLineStamps ⟨0,0⟩ ⟨3,0⟩ 3 3).length = 4 ∧
    (⌈(3:ℚ) / max 1 ((3:ℚ)/3)⌉).toNat = 3 ∧
    (drawLineStamps ⟨0,0⟩ ⟨3,0⟩ 3 3).length ≠ (⌈(3:ℚ) / max 1 ((3:ℚ)/3)⌉).toNat := by
  refine ⟨by norm_num, ?_, ?_, ?_⟩
  · with_unfolding_all rfl
  · with_unfolding_all rfl
  · exact of_decide_eq_true (by with_unfolding_all rfl)

/-- C8 amended: between two consecutive points the stroke interpolation
paints `ceil(distance / max(1, brushSize/3)) + 1` evenly spaced stamps
(both endpoints included); coincident points yield exactly 1 stamp with no
division by zero, and two points exactly `brushSize*3` apart (for a
positive brush size) yield at least 2 stamps. -/
theorem c8_stamp_count (a b : Pt) (brush dist : ℚ)
    (hd : 0 ≤ dist) (hsq : dist^2 = (b.x - a.x)^2 + (b.y - a.y)^2) :
    (drawLineStamps a b brush dist).length
      = (⌈dist / max 1 (brush / 3)⌉).toNat + 1 ∧
    (a = b → (drawLineStamps a b brush dist).length = 1) ∧
    (0 < brush → dist = 3 * brush → 2 ≤ (drawLineStamps a b brush dist).length) := by
  have hlen : (drawLineStamps a b brush dist).length
      = (⌈dist / max 1 (brush / 3)⌉).toNat + 1 := by
    simp only [drawLineStamps, List.length_map, List.length_range]
  refine ⟨hlen, ?_, ?_⟩
  · intro hab
    subst hab
    have h0 : dist ^ 2 = 0 := by rw [hsq]; ring
    have hdist : dist = 0 := (pow_eq_zero_iff (by decide)).mp h0
    rw [hlen, hdist]
    norm_num
  · intro hb hdist
    have hstep : (0:ℚ) < max 1 (brush / 3) := lt_of_lt_of_le one_pos (le_max_left _ _)
    have hpos : (0:ℚ) < dist / max 1 (brush / 3) := by
      apply div_pos _ hstep
      rw [hdist]; positivity
    have hceil : 0 < ⌈dist / max 1 (brush / 3)⌉ := Int.ceil_pos.mpr hpos
    rw [hlen]
    omega

/-- Witness for C8 amended at `(0,0)`, `(3,0)`, brush 1, distance 3. -/
theorem c8_stamp_count_witness :
    (drawLineStamps ⟨0,0⟩ ⟨3,0⟩ 1 3).length
      = (⌈(3:ℚ) / max 1 ((1:ℚ) / 3)⌉).toNat + 1 :=
  (c8_stamp_count ⟨0,0⟩ ⟨3,0⟩ 1 3 (by norm_num) (by norm_num)).1

/-- C9: rendering an image sizes the image canvas and the mask canvas to
the same `(w, h)`, with `w = max(1, round(naturalWidth·scale))` and
`h = max(1, round(naturalHeight·scale))` for
`scale = min(960/naturalWidth, 640/naturalHeight, 1)`, so the
image/mask buffer dimensions handed to the inpainting adapter always
match. -/
theorem c9_canvas_dims (nw nh : ℕ) (hw : 0 < nw) (hh : 0 < nh) :
    (renderImage nw nh).1 = (renderImage nw nh).2 ∧
    (renderImage nw nh).1 =
      (max 1 (jsRound ((nw : ℚ) * min ((960:ℚ)/(nw:ℚ)) (min ((640:ℚ)/(nh:ℚ)) 1))).toNat,
       max 1 (jsRound ((nh : ℚ) * min ((960:ℚ)/(nw:ℚ)) (min ((640:ℚ)/(nh:ℚ)) 1))).toNat) :=
  ⟨rfl, rfl⟩

/-- Witness for C9 at an 800×600 image: both canvases get 800×600. -/
theorem c9_canvas_dims_witness :
    (renderImage 800 600).1 = (renderImage 800 600).2 ∧
    (renderImage 800 600).1 = (800, 600) :=
  ⟨(c9_canvas_dims 800 600 (by decide) (by decide)).1, by with_unfolding_all rfl⟩

/-- Reading at an integer-valued rational index. -/
theorem tRead_intCast (len : ℕ) (d : ℕ → ℕ) (z : ℤ) :
    tRead len d (z : ℚ) =
      if 0 ≤ z ∧ z < (len : ℤ) then some ((d z.toNat : ℕ) : ℚ) else none := by
  unfold tRead isIdx
  simp

/-- Writing at an integer-valued rational index. -/
theorem tWrite_intCast (len : ℕ) (d : ℕ → ℕ) (z : ℤ) (v : Option ℚ) :
    tWrite len d (z : ℚ) v =
      if 0 ≤ z ∧ z < (len : ℤ) then Function.update d z.toNat (toUint8Clamp v) else d := by
  unfold tWrite isIdx
  simp

/-- Writing at a natural-valued rational index. -/
theorem tWrite_natCast (len : ℕ) (d : ℕ → ℕ) (m : ℕ) (v : Option ℚ) :
    tWrite len d (m : ℚ) v =
      if m < len then Function.update d m (toUint8Clamp v) else d := by
  have h : ((m : ℕ) : ℚ) = (((m : ℕ) : ℤ) : ℚ) := by push_cast; ring
  rw [h, tWrite_intCast]
  by_cases hm : m < len
  · rw [if_pos, if_pos hm]
    · rw [Int.toNat_ofNat]
    · exact ⟨Int.natCast_nonneg m, by exact_mod_cast hm⟩
  · rw [if_neg, if_neg hm]
    rintro ⟨-, h2⟩
    exact hm (by exact_mod_cast h2)

/-- Unfolding rule for NaN-free accumulator addition. -/
theorem optAdd_some (a b : ℚ) : optAdd (some a) (some b) = some (a + b) := rfl

/-- The rational neighbor guard of the sampling loop holds exactly when the
integer-level `qualifies` predicate does. -/
theorem qualifies_iff_guard (W sY col : ℕ) (sR : ℤ) (o : ℤ × ℤ) :
    (0 ≤ (sR : ℚ) + (o.1 : ℚ) ∧ (sR : ℚ) + (o.1 : ℚ) < (sY : ℚ) ∧
     0 ≤ (col : ℚ) + (o.2 : ℚ) ∧ (col : ℚ) + (o.2 : ℚ) < (W : ℚ)) ↔
    qualifies W sY sR col o := by
  unfold qualifies
  constructor
  · rintro ⟨h1, h2, h3, h4⟩
    exact ⟨by exact_mod_cast h1, by exact_mod_cast h2, by exact_mod_cast h3,
      by exact_mod_cast h4⟩
  · rintro ⟨h1, h2, h3, h4⟩
    exact ⟨by exact_mod_cast h1, by exact_mod_cast h2, by exact_mod_cast h3,
      by exact_mod_cast h4⟩

/-- Bounds for a qualifying sample's byte index: it is a valid index of the
buffer and lies strictly inside the clean region below `sY * W * 4`. -/
theorem sample_index_in (W H sY : ℕ) (hYH : sY ≤ H) (a b : ℤ)
    (ha : 0 ≤ a) (ha2 : a < (sY : ℤ)) (hb : 0 ≤ b) (hb2 : b < (W : ℤ)) (c : ℕ) (hc : c ≤ 2) :
    0 ≤ (a * (W : ℤ) + b) * 4 + (c : ℤ) ∧
    (a * (W : ℤ) + b) * 4 + (c : ℤ) < ((W * H * 4 : ℕ) : ℤ) ∧
    ((a * (W : ℤ) + b) * 4 + (c : ℤ)).toNat < sY * W * 4 := by
  have hW : (0 : ℤ) ≤ (W : ℤ) := Int.natCast_nonneg W
  have h2 : (a + 1) * (W : ℤ) ≤ (sY : ℤ) * (W : ℤ) :=
    mul_le_mul_of_nonneg_right ha2 hW
  have h3 : a * (W : ℤ) + b < (sY : ℤ) * (W : ℤ) := by nlinarith
  have h0 : 0 ≤ a * (W : ℤ) + b := add_nonneg (mul_nonneg ha hW) hb
  have hc' : (c : ℤ) ≤ 2 := by exact_mod_cast hc
  have hc0 : (0 : ℤ) ≤ (c : ℤ) := Int.natCast_nonneg c
  have hlt : (a * (W : ℤ) + b) * 4 + (c : ℤ) < ((sY * W * 4 : ℕ) : ℤ) := by
    push_cast
    nlinarith
  have hYH' : (sY : ℤ) ≤ (H : ℤ) := by exact_mod_cast hYH
  have hbound : ((sY * W * 4 : ℕ) : ℤ) ≤ ((W * H * 4 : ℕ) : ℤ) := by
    push_cast
    nlinarith [mul_le_mul_of_nonneg_right hYH' hW]
  have hpos : 0 ≤ (a * (W : ℤ) + b) * 4 + (c : ℤ) := by nlinarith
  refine ⟨hpos, lt_of_lt_of_le hlt hbound, ?_⟩
  have := hlt
  generalize hz : (a * (W : ℤ) + b) * 4 + (c : ℤ) = z at *
  omega

/-- Unfolding rule for `neighborSum` over a cons cell. -/
theorem neighborSum_cons (W : ℕ) (d0 : ℕ → ℕ) (sR : ℤ) (col c : ℕ)
    (o : ℤ × ℤ) (l : List (ℤ × ℤ)) :
    neighborSum W d0 sR col c (o :: l) =
      d0 (((sR + o.1) * (W : ℤ) + ((col : ℤ) + o.2)) * 4 + (c : ℤ)).toNat +
        neighborSum W d0 sR col c l := by
  simp [neighborSum]

/-- The rational sampling fold of `fillPixel` computes, over any offset
list, the channel sums and neighbor count of the integer-level qualifying
neighbors, reading from the original buffer (all sampled bytes lie in the
clean region where `d` and `d0` agree). -/
theorem sampleFold_eq (W H sY col : ℕ) (hYH : sY ≤ H) (sR : ℤ) (hsR : 0 ≤ sR)
    (d0 d : ℕ → ℕ) (hagree : ∀ n, n < sY * W * 4 → d n = d0 n)
    (l : List (ℤ × ℤ)) :
    ∀ (r0 g0 b0 c0 : ℕ),
    l.foldl (sampleStep W (W * H * 4) d (sY : ℚ) (col : ℚ) (sR : ℚ))
        ⟨some (r0 : ℚ), some (g0 : ℚ), some (b0 : ℚ), c0⟩
      = ⟨some ((r0 + neighborSum W d0 sR col 0
            (l.filter fun o => decide (qualifies W sY sR col o)) : ℕ) : ℚ),
         some ((g0 + neighborSum W d0 sR col 1
            (l.filter fun o => decide (qualifies W sY sR col o)) : ℕ) : ℚ),
         some ((b0 + neighborSum W d0 sR col 2
            (l.filter fun o => decide (qualifies W sY sR col o)) : ℕ) : ℚ),
         c0 + (l.filter fun o => decide (qualifies W sY sR col o)).length⟩ := by
  induction l with
  | nil =>
    intro r0 g0 b0 c0
    simp [neighborSum]
  | cons o l ih =>
    intro r0 g0 b0 c0
    rw [List.foldl_cons, List.filter_cons]
    by_cases hq : qualifies W sY sR col o
    · have hg := (qualifies_iff_guard W sY col sR o).mpr hq
      have hq1 := hq.1
      have hq2 := hq.2.1
      have hq3 := hq.2.2.1
      have hq4 := hq.2.2.2
      have hin0 := sample_index_in W H sY hYH (sR + o.1) ((col : ℤ) + o.2)
        hq1 hq2 hq3 hq4 0 (by norm_num)
      have hin1 := sample_index_in W H sY hYH (sR + o.1) ((col : ℤ) + o.2)
        hq1 hq2 hq3 hq4 1 (by norm_num)
      have hin2 := sample_index_in W H sY hYH (sR + o.1) ((col : ℤ) + o.2)
        hq1 hq2 hq3 hq4 2 (by norm_num)
      have hstep : sampleStep W (W * H * 4) d (sY : ℚ) (col : ℚ) (sR : ℚ)
          ⟨some (r0 : ℚ), some (g0 : ℚ), some (b0 : ℚ), c0⟩ o
          = ⟨some ((r0 + d0 (((sR + o.1) * (W : ℤ) + ((col : ℤ) + o.2)) * 4 + ((0:ℕ) : ℤ)).toNat : ℕ) : ℚ),
             some ((g0 + d0 (((sR + o.1) * (W : ℤ) + ((col : ℤ) + o.2)) * 4 + ((1:ℕ) : ℤ)).toNat : ℕ) : ℚ),
             some ((b0 + d0 (((sR + o.1) * (W : ℤ) + ((col : ℤ) + o.2)) * 4 + ((2:ℕ) : ℤ)).toNat : ℕ) : ℚ),
             c0 + 1⟩ := by
        have e1' : (((sR : ℚ) + (o.1 : ℚ)) * (W : ℚ) + ((col : ℚ) + (o.2 : ℚ))) * 4 + 1 =
            (((((sR + o.1) * (W : ℤ) + ((col : ℤ) + o.2)) * 4 + ((1:ℕ) : ℤ)) : ℤ) : ℚ) := by
          push_cast
          ring
        have e2' : (((sR : ℚ) + (o.1 : ℚ)) * (W : ℚ) + ((col : ℚ) + (o.2 : ℚ))) * 4 + 2 =
            (((((sR + o.1) * (W : ℤ) + ((col : ℤ) + o.2)) * 4 + ((2:ℕ) : ℤ)) : ℤ) : ℚ) := by
          push_cast
          ring
        have e0' : (((sR : ℚ) + (o.1 : ℚ)) * (W : ℚ) + ((col : ℚ) + (o.2 : ℚ))) * 4 =
            (((((sR + o.1) * (W : ℤ) + ((col : ℤ) + o.2)) * 4 + ((0:ℕ) : ℤ)) : ℤ) : ℚ) := by
          push_cast
          ring
        simp only [sampleStep]
        rw [if_pos hg, e1', e2', e0', tRead_intCast, tRead_intCast, tRead_intCast,
          if_pos ⟨hin0.1, hin0.2.1⟩, if_pos ⟨hin1.1, hin1.2.1⟩, if_pos ⟨hin2.1, hin2.2.1⟩,
          hagree _ hin0.2.2, hagree _ hin1.2.2, hagree _ hin2.2.2,
          optAdd_some, optAdd_some, optAdd_some]
        push_cast
        rfl
      rw [hstep, if_pos (decide_eq_true hq), ih,
        neighborSum_cons, neighborSum_cons, neighborSum_cons, List.length_cons]
      congr 1
      · simp only [Option.some.injEq]
        push_cast
        ring
      · simp only [Option.some.injEq]
        push_cast
        ring
      · simp only [Option.some.injEq]
        push_cast
        ring
      · omega
    · have hg : ¬ (0 ≤ (sR : ℚ) + (o.1 : ℚ) ∧ (sR : ℚ) + (o.1 : ℚ) < (sY : ℚ) ∧
          0 ≤ (col : ℚ) + (o.2 : ℚ) ∧ (col : ℚ) + (o.2 : ℚ) < (W : ℚ)) :=
        fun h => hq ((qualifies_iff_guard W sY col sR o).mp h)
      have hstep : sampleStep W (W * H * 4) d (sY : ℚ) (col : ℚ) (sR : ℚ)
          ⟨some (r0 : ℚ), some (g0 : ℚ), some (b0 : ℚ), c0⟩ o
          = ⟨some (r0 : ℚ), some (g0 : ℚ), some (b0 : ℚ), c0⟩ := by
        simp only [sampleStep]
        rw [if_neg hg]
      rw [hstep, if_neg (by simp [hq]), ih]

/-- Unfolding rule for dividing a NaN-free accumulator. -/
theorem optDiv_some (a : ℚ) (c : ℕ) : optDiv (some a) c = some (a / (c : ℚ)) := rfl

/-- Storing 255 through the clamped conversion yields 255. -/
theorem toUint8Clamp_255 : toUint8Clamp (some 255) = 255 := by
  norm_num [toUint8Clamp]

/-- The row of a byte of pixel `(row, col)`. -/
theorem pixRow_mk (W row col c : ℕ) (hcol : col < W) (hc : c < 4) :
    pixRow W ((row * W + col) * 4 + c) = row := by
  have hW : 0 < W := by omega
  unfold pixRow
  have h1 : ((row * W + col) * 4 + c) / 4 = row * W + col := by omega
  rw [h1, add_comm (row * W) col, mul_comm row W, Nat.add_mul_div_left _ _ hW,
    Nat.div_eq_of_lt hcol, Nat.zero_add]

/-- The column of a byte of pixel `(row, col)`. -/
theorem pixCol_mk (W row col c : ℕ) (hcol : col < W) (hc : c < 4) :
    pixCol W ((row * W + col) * 4 + c) = col := by
  unfold pixCol
  have h1 : ((row * W + col) * 4 + c) / 4 = row * W + col := by omega
  rw [h1, add_comm (row * W) col, mul_comm row W, Nat.add_mul_mod_self_left]
  exact Nat.mod_eq_of_lt hcol

/-- A pixel strictly inside the image has linear index below `W * H`. -/
theorem pixel_lt (W H row col : ℕ) (hrow : row < H) (hcol : col < W) :
    row * W + col < W * H := by
  have h1 : (row + 1) * W ≤ H * W := Nat.mul_le_mul_right W (by omega)
  calc row * W + col < row * W + W := by omega
    _ = (row + 1) * W := by ring
    _ ≤ H * W := h1
    _ = W * H := Nat.mul_comm H W

/-- Specialization of the sampling fold to the zero accumulator the source
starts from. -/
theorem sampleFold_eq0 (W H sY col : ℕ) (hYH : sY ≤ H) (sR : ℤ) (hsR : 0 ≤ sR)
    (d0 d : ℕ → ℕ) (hagree : ∀ n, n < sY * W * 4 → d n = d0 n) :
    neighborOffsets.foldl (sampleStep W (W * H * 4) d (sY : ℚ) (col : ℚ) (sR : ℚ))
        ⟨some 0, some 0, some 0, 0⟩
      = ⟨some ((neighborSum W d0 sR col 0 (qualNeighbors W sY sR col) : ℕ) : ℚ),
         some ((neighborSum W d0 sR col 1 (qualNeighbors W sY sR col) : ℕ) : ℚ),
         some ((neighborSum W d0 sR col 2 (qualNeighbors W sY sR col) : ℕ) : ℚ),
         (qualNeighbors W sY sR col).length⟩ := by
  have h := sampleFold_eq W H sY col hYH sR hsR d0 d hagree neighborOffsets 0 0 0 0
  unfold qualNeighbors
  simpa using h

/-- Integral-case characterization of `fillPixel`: filling the pixel at
`(sY + k, col)` of the rectangle updates exactly the four bytes of that
pixel with the values of the pure per-pixel formula (computed from the
original buffer) and leaves every other byte of `d` alone. -/
theorem fillPixel_eq (W H sY k col : ℕ) (hYH : sY ≤ H) (hk : sY + k < H) (hcol : col < W)
    (d0 d : ℕ → ℕ) (hagree : ∀ n, n < sY * W * 4 → d n = d0 n)
    (hcur : ∀ c, c < 4 → d (((sY + k) * W + col) * 4 + c) = d0 (((sY + k) * W + col) * 4 + c)) :
    fillPixel W H (sY : ℚ) ((sY : ℚ) + (k : ℚ)) (col : ℚ) d
      = fun n => if n / 4 = (sY + k) * W + col then pureVal W sY d0 n else d n := by
  have hsR0 : (0 : ℤ) ≤ sourceRow sY (sY + k) := le_max_left _ _
  have hsamp : max (0 : ℚ) ((sY : ℚ) - (((sY : ℚ) + (k : ℚ)) - (sY : ℚ)) - 1)
      = ((sourceRow sY (sY + k) : ℤ) : ℚ) := by
    unfold sourceRow
    push_cast
    try rfl
    try (congr 1; ring)
  have hp : (sY + k) * W + col < W * H := pixel_lt W H (sY + k) col hk hcol
  simp only [fillPixel]
  rw [hsamp, if_pos (show (0 : ℚ) ≤ ((sourceRow sY (sY + k) : ℤ) : ℚ) by exact_mod_cast hsR0),
    sampleFold_eq0 W H sY col hYH _ hsR0 d0 d hagree]
  dsimp only
  by_cases hq : 0 < (qualNeighbors W sY (sourceRow sY (sY + k)) col).length
  · rw [if_pos hq]
    have em0 : (((sY : ℚ) + (k : ℚ)) * (W : ℚ) + (col : ℚ)) * 4
        = ((((sY + k) * W + col) * 4 : ℕ) : ℚ) := by push_cast; ring
    have em1 : (((sY : ℚ) + (k : ℚ)) * (W : ℚ) + (col : ℚ)) * 4 + 1
        = ((((sY + k) * W + col) * 4 + 1 : ℕ) : ℚ) := by push_cast; ring
    have em2 : (((sY : ℚ) + (k : ℚ)) * (W : ℚ) + (col : ℚ)) * 4 + 2
        = ((((sY + k) * W + col) * 4 + 2 : ℕ) : ℚ) := by push_cast; ring
    have em3 : (((sY : ℚ) + (k : ℚ)) * (W : ℚ) + (col : ℚ)) * 4 + 3
        = ((((sY + k) * W + col) * 4 + 3 : ℕ) : ℚ) := by push_cast; ring
    rw [em3, em2, em1, em0, optDiv_some, optDiv_some, optDiv_some,
      tWrite_natCast, tWrite_natCast, tWrite_natCast, tWrite_natCast,
      if_pos (show ((sY + k) * W + col) * 4 + 3 < W * H * 4 by omega),
      if_pos (show ((sY + k) * W + col) * 4 + 2 < W * H * 4 by omega),
      if_pos (show ((sY + k) * W + col) * 4 + 1 < W * H * 4 by omega),
      if_pos (show ((sY + k) * W + col) * 4 < W * H * 4 by omega),
      toUint8Clamp_255]
    funext n
    by_cases hn : n / 4 = (sY + k) * W + col
    · have hc4 : n % 4 < 4 := Nat.mod_lt _ (by norm_num)
      have hd : n % 4 = 0 ∨ n % 4 = 1 ∨ n % 4 = 2 ∨ n % 4 = 3 := by omega
      rw [if_pos hn]
      rcases hd with h | h | h | h
      · rw [show n = ((sY + k) * W + col) * 4 + 0 from by omega]
        simp only [Function.update_apply]
        rw [if_neg (by omega), if_neg (by omega), if_neg (by omega), if_pos (by omega)]
        simp only [pureVal]
        rw [pixRow_mk W (sY + k) col 0 hcol (by norm_num),
          pixCol_mk W (sY + k) col 0 hcol (by norm_num)]
        rw [if_pos hq, show (((sY + k) * W + col) * 4 + 0) % 4 = 0 from by omega,
          if_neg (show ¬ (0 : ℕ) = 3 from by omega)]
      · rw [show n = ((sY + k) * W + col) * 4 + 1 from by omega]
        simp only [Function.update_apply]
        rw [if_neg (by omega), if_neg (by omega), if_pos trivial]
        simp only [pureVal]
        rw [pixRow_mk W (sY + k) col 1 hcol (by norm_num),
          pixCol_mk W (sY + k) col 1 hcol (by norm_num)]
        rw [if_pos hq, show (((sY + k) * W + col) * 4 + 1) % 4 = 1 from by omega,
          if_neg (show ¬ (1 : ℕ) = 3 from by omega)]
      · rw [show n = ((sY + k) * W + col) * 4 + 2 from by omega]
        simp only [Function.update_apply]
        rw [if_neg (by omega), if_pos trivial]
        simp only [pureVal]
        rw [pixRow_mk W (sY + k) col 2 hcol (by norm_num),
          pixCol_mk W (sY + k) col 2 hcol (by norm_num)]
        rw [if_pos hq, show (((sY + k) * W + col) * 4 + 2) % 4 = 2 from by omega,
          if_neg (show ¬ (2 : ℕ) = 3 from by omega)]
      · rw [show n = ((sY + k) * W + col) * 4 + 3 from by omega]
        simp only [Function.update_apply]
        rw [if_pos trivial]
        simp only [pureVal]
        rw [pixRow_mk W (sY + k) col 3 hcol (by norm_num),
          pixCol_mk W (sY + k) col 3 hcol (by norm_num)]
        rw [if_pos hq, show (((sY + k) * W + col) * 4 + 3) % 4 = 3 from by omega,
          if_pos (show (3 : ℕ) = 3 from rfl)]
    · rw [if_neg hn]
      simp only [Function.update_apply]
      rw [if_neg (by omega), if_neg (by omega), if_neg (by omega), if_neg (by omega)]
  · rw [if_neg hq]
    funext n
    by_cases hn : n / 4 = (sY + k) * W + col
    · rw [if_pos hn]
      obtain ⟨c, hc4, hn'⟩ : ∃ c, c < 4 ∧ n = ((sY + k) * W + col) * 4 + c :=
        ⟨n % 4, by omega, by omega⟩
      rw [hn']
      simp only [pureVal]
      rw [pixRow_mk W (sY + k) col c hcol hc4, pixCol_mk W (sY + k) col c hcol hc4,
        if_neg hq]
      exact hcur c hc4
    · rw [if_neg hn]

/-- The partially processed buffer agrees with the original buffer on the clean region the
sampling reads from. -/
theorem doneAt_agree (W H sX sY lim : ℕ) (d0 : ℕ → ℕ) :
    ∀ n, n < sY * W * 4 → doneAt W H sX sY lim d0 n = d0 n := by
  intro n hn
  unfold doneAt
  rw [if_neg]
  rintro ⟨⟨hlen, hrow, hcolr⟩, -⟩
  by_cases hW : W = 0
  · subst hW
    omega
  · have hW0 : 0 < W := Nat.pos_of_ne_zero hW
    unfold pixRow at hrow
    have h1 : sY * W ≤ n / 4 := (Nat.le_div_iff_mul_le hW0).mp hrow
    omega

/-- The partially processed buffer has not yet touched any byte of a pixel at or past the
processing bound. -/
theorem doneAt_untouched (W H sX sY lim : ℕ) (d0 : ℕ → ℕ) (n : ℕ) (h : lim ≤ n / 4) :
    doneAt W H sX sY lim d0 n = d0 n := by
  unfold doneAt
  rw [if_neg]
  rintro ⟨-, hlt⟩
  omega

/-- Before the first rectangle pixel is processed, `doneAt` is the original
buffer. -/
theorem doneAt_start (W H sX sY : ℕ) (d0 : ℕ → ℕ) :
    d0 = doneAt W H sX sY (sY * W + sX) d0 := by
  funext n
  unfold doneAt
  by_cases h : inRect W H sX sY n ∧ n / 4 < sY * W + sX
  · exfalso
    obtain ⟨⟨hlen, hrow, hcol⟩, hlt⟩ := h
    unfold pixRow at hrow
    unfold pixCol at hcol
    by_cases hW : W = 0
    · subst hW
      omega
    · have hW0 : 0 < W := Nat.pos_of_ne_zero hW
      have hrowW : sY * W ≤ n / 4 / W * W := Nat.mul_le_mul_right W hrow
      have hdm := Nat.div_add_mod' (n / 4) W
      omega
  · rw [if_neg h]

/-- Passing from the end of one processed rectangle row to the start of the
next: the skipped pixels have columns left of the rectangle. -/
theorem doneAt_row_end (W H sX sY R : ℕ) (hXW : sX ≤ W) (d0 : ℕ → ℕ) :
    doneAt W H sX sY (R * W + W) d0 = doneAt W H sX sY ((R + 1) * W + sX) d0 := by
  funext n
  unfold doneAt
  by_cases hin : inRect W H sX sY n
  · have hiff : (n / 4 < R * W + W) ↔ (n / 4 < (R + 1) * W + sX) := by
      have hrw : R * W + W = (R + 1) * W := by ring
      constructor
      · intro h
        omega
      · intro h
        by_contra hcon
        push_neg at hcon
        obtain ⟨hlen, hrow, hcol⟩ := hin
        by_cases hW : W = 0
        · subst hW
          omega
        · have hW0 : 0 < W := Nat.pos_of_ne_zero hW
          have h2 : (R + 1) * W + W = (R + 1 + 1) * W := by ring
          have hdiv : n / 4 / W = R + 1 := Nat.div_eq_of_lt_le (by omega) (by omega)
          unfold pixRow at hrow
          unfold pixCol at hcol
          have hdm := Nat.div_add_mod' (n / 4) W
          rw [hdiv] at hdm
          omega
    by_cases hlt : n / 4 < R * W + W
    · rw [if_pos ⟨hin, hlt⟩, if_pos ⟨hin, hiff.mp hlt⟩]
    · rw [if_neg (fun hc => hlt hc.2), if_neg (fun hc => hlt (hiff.mpr hc.2))]
  · rw [if_neg (fun hc => hin hc.1), if_neg (fun hc => hin hc.1)]

/-- Once the processing bound covers every pixel, `doneAt` is the pure
two-buffer fill. -/
theorem doneAt_full (W H sX sY lim : ℕ) (hlim : W * H ≤ lim) (d0 : ℕ → ℕ) :
    doneAt W H sX sY lim d0 = pureFill W H sX sY d0 := by
  funext n
  unfold doneAt pureFill
  by_cases hin : inRect W H sX sY n
  · have hlen : n < W * H * 4 := hin.1
    rw [if_pos ⟨hin, by omega⟩, if_pos hin]
  · rw [if_neg (fun hc => hin hc.1), if_neg hin]

/-- Processing one rectangle row left to right advances the `doneAt` bound
one pixel at a time. -/
theorem rowFold_eq (W H sX sY k : ℕ) (hYH : sY ≤ H) (hXW : sX ≤ W) (hk : sY + k < H)
    (d0 : ℕ → ℕ) :
    ∀ m, m ≤ W - sX →
    (List.range m).foldl
        (fun d (j : ℕ) => fillPixel W H (sY : ℚ) ((sY : ℚ) + (k : ℚ)) ((sX : ℚ) + (j : ℚ)) d)
        (doneAt W H sX sY ((sY + k) * W + sX) d0)
      = doneAt W H sX sY ((sY + k) * W + sX + m) d0 := by
  intro m
  induction m with
  | zero =>
    intro _
    simp
  | succ m ih =>
    intro hm
    rw [List.range_succ, List.foldl_append, ih (by omega), List.foldl_cons, List.foldl_nil]
    have hcol : sX + m < W := by omega
    have hx : (sX : ℚ) + (m : ℚ) = ((sX + m : ℕ) : ℚ) := by push_cast; ring
    rw [hx, fillPixel_eq W H sY k (sX + m) hYH hk hcol d0 _
      (doneAt_agree W H sX sY _ d0)
      (fun c hc => doneAt_untouched W H sX sY _ d0 _ (by omega))]
    funext n
    by_cases hn : n / 4 = (sY + k) * W + (sX + m)
    · obtain ⟨c, hc4, hn'⟩ : ∃ c, c < 4 ∧ n = ((sY + k) * W + (sX + m)) * 4 + c :=
        ⟨n % 4, by omega, by omega⟩
      subst hn'
      rw [if_pos hn]
      have hp : (sY + k) * W + (sX + m) < W * H := pixel_lt W H (sY + k) (sX + m) hk hcol
      have hr := pixRow_mk W (sY + k) (sX + m) c hcol hc4
      have hcc := pixCol_mk W (sY + k) (sX + m) c hcol hc4
      unfold doneAt
      rw [if_pos ⟨⟨by omega, by rw [hr]; omega, by rw [hcc]; omega⟩, by omega⟩]
    · rw [if_neg hn]
      unfold doneAt
      by_cases h2 : inRect W H sX sY n ∧ n / 4 < (sY + k) * W + sX + m
      · rw [if_pos h2, if_pos ⟨h2.1, by omega⟩]
      · rw [if_neg h2, if_neg]
        rintro ⟨hin2, hlt2⟩
        exact h2 ⟨hin2, by omega⟩

/-- The full row-major double loop computes `doneAt` with the bound at the
start of the first unprocessed row. -/
theorem mainFold_eq (W H sX sY : ℕ) (hYH : sY ≤ H) (hXW : sX ≤ W) (d0 : ℕ → ℕ) :
    ∀ r, r ≤ H - sY →
    (List.range r).foldl
        (fun d (k : ℕ) => (List.range (W - sX)).foldl
          (fun d' (j : ℕ) => fillPixel W H (sY : ℚ) ((sY : ℚ) + (k : ℚ)) ((sX : ℚ) + (j : ℚ)) d') d)
        d0
      = doneAt W H sX sY ((sY + r) * W + sX) d0 := by
  intro r
  induction r with
  | zero =>
    intro _
    rw [List.range_zero, List.foldl_nil, Nat.add_zero]
    exact doneAt_start W H sX sY d0
  | succ r ih =>
    intro hr
    rw [List.range_succ, List.foldl_append, ih (by omega), List.foldl_cons, List.foldl_nil,
      rowFold_eq W H sX sY r hYH hXW (by omega) d0 (W - sX) (le_refl _),
      show (sY + r) * W + sX + (W - sX) = (sY + r) * W + W from by omega,
      doneAt_row_end W H sX sY (sY + r) hXW d0,
      show (sY + r + 1) * W + sX = (sY + (r + 1)) * W + sX from by
        have : sY + r + 1 = sY + (r + 1) := by omega
        rw [this]]

/-- In the integral case the in-place double loop equals the pure
two-buffer fill. -/
theorem fillLoop_eq_pureFill (W H sX sY : ℕ) (hYH : sY ≤ H) (hXW : sX ≤ W) (d0 : ℕ → ℕ) :
    fillLoop W H (sX : ℚ) (sY : ℚ) d0 = pureFill W H sX sY d0 := by
  unfold fillLoop
  have hY : (⌈(H : ℚ) - (sY : ℚ)⌉).toNat = H - sY := by
    rw [show (H : ℚ) - (sY : ℚ) = ((H - sY : ℕ) : ℚ) from by rw [Nat.cast_sub hYH],
      Int.ceil_natCast]
    exact Int.toNat_ofNat _
  have hX : (⌈(W : ℚ) - (sX : ℚ)⌉).toNat = W - sX := by
    rw [show (W : ℚ) - (sX : ℚ) = ((W - sX : ℕ) : ℚ) from by rw [Nat.cast_sub hXW],
      Int.ceil_natCast]
    exact Int.toNat_ofNat _
  rw [hY, hX, mainFold_eq W H sX sY hYH hXW d0 (H - sY) (le_refl _),
    show sY + (H - sY) = H from by omega]
  refine doneAt_full W H sX sY (H * W + sX) ?_ d0
  have h := Nat.mul_comm W H
  omega

/-- Master bridge: whenever both computed rectangle dimensions are whole
numbers `wwN` and `whN`, the region filler's buffer equals the pure
two-buffer fill of the rectangle with top-left pixel
`(W - wwN, H - whN)`. -/
theorem removeWatermark_data_eq (W H wwN whN : ℕ)
    (hww : watermarkWidth W = (wwN : ℚ)) (hwh : watermarkHeight H = (whN : ℚ))
    (d0 : ℕ → ℕ) :
    (removeWatermark ⟨W, H, d0⟩).data = pureFill W H (W - wwN) (H - whN) d0 := by
  have hwwW : wwN ≤ W := by
    have h := watermarkWidth_le W
    rw [hww] at h
    exact_mod_cast h
  have hwhH : whN ≤ H := by
    have h := watermarkHeight_le H
    rw [hwh] at h
    exact_mod_cast h
  show fillLoop W H ((W : ℚ) - watermarkWidth W) ((H : ℚ) - watermarkHeight H) d0 = _
  rw [hww, hwh,
    show (W : ℚ) - (wwN : ℚ) = ((W - wwN : ℕ) : ℚ) from by rw [Nat.cast_sub hwwW],
    show (H : ℚ) - (whN : ℚ) = ((H - whN : ℕ) : ℚ) from by rw [Nat.cast_sub hwhH]]
  exact fillLoop_eq_pureFill W H (W - wwN) (H - whN) (Nat.sub_le _ _) (Nat.sub_le _ _) d0

/-- Helper: the region height is strictly below the image height, so the
rectangle top row is at least 1. -/
theorem watermarkHeight_lt (H : ℕ) (hH : 0 < H) : watermarkHeight H < (H : ℚ) := by
  have h0 : (0 : ℚ) < (H : ℚ) := by exact_mod_cast hH
  refine lt_of_le_of_lt (min_le_right _ _) ?_
  nlinarith

/-- Helper: the centre offset `(0,0)` always qualifies when the clean
region above the rectangle is non-empty, so the neighbor count is positive
for every rectangle pixel. -/
theorem qual_center_pos (W sY col row : ℕ) (hsY : 0 < sY) (hcol : col < W)
    (hrow : sY ≤ row) :
    0 < (qualNeighbors W sY (sourceRow sY row) col).length := by
  have hmem : ((0 : ℤ), (0 : ℤ)) ∈ qualNeighbors W sY (sourceRow sY row) col := by
    unfold qualNeighbors
    rw [List.mem_filter]
    refine ⟨by unfold neighborOffsets; simp, ?_⟩
    rw [decide_eq_true_eq]
    unfold qualifies sourceRow
    have hrz : (sY : ℤ) ≤ (row : ℤ) := by exact_mod_cast hrow
    have hsz : (0 : ℤ) < (sY : ℤ) := by exact_mod_cast hsY
    have hcz : (col : ℤ) < (W : ℤ) := by exact_mod_cast hcol
    have hc0 : (0 : ℤ) ≤ (col : ℤ) := Int.natCast_nonneg col
    refine ⟨by omega, by omega, by omega, by omega⟩
  exact List.length_pos_of_mem hmem

/-- C1 (amended): for an image whose computed rectangle dimensions are
whole numbers `wwN × whN`, the region filler keeps the image dimensions and
leaves every byte outside the bottom-right rectangle (top-left pixel
`(W − wwN, H − whN)`) byte-identical to the input. -/
theorem c1_outside_rect_untouched (W H wwN whN : ℕ) (hW : 2 ≤ W) (hH : 2 ≤ H)
    (hww : watermarkWidth W = (wwN : ℚ)) (hwh : watermarkHeight H = (whN : ℚ))
    (d0 : ℕ → ℕ) :
    (removeWatermark ⟨W, H, d0⟩).width = W ∧
    (removeWatermark ⟨W, H, d0⟩).height = H ∧
    ∀ n, ¬ inRect W H (W - wwN) (H - whN) n →
      (removeWatermark ⟨W, H, d0⟩).data n = d0 n := by
  refine ⟨rfl, rfl, fun n hn => ?_⟩
  rw [removeWatermark_data_eq W H wwN whN hww hwh d0]
  unfold pureFill
  rw [if_neg hn]

/-- C1 counterexample: the all-zero 4×10 image has a fractional rectangle
height (`0.15·10 = 1.5`), so the filler's first row writes land at
integer-valued but misaligned typed-array indices.  Byte 151 — the alpha
byte of pixel (row 9, column 1), whose column 1 lies strictly left of the
rectangle start column `4 − watermarkWidth 4 = 3` — changes from 0 to 255,
refuting the claim that only pixels inside the rectangle are modified.
(Behavior double-checked under IEEE-double JavaScript semantics.) -/
theorem c1_outside_rect_counterexample :
    ((1 : ℚ) < (4 : ℚ) - watermarkWidth 4) ∧
    ((10 : ℚ) - watermarkHeight 10 ≤ 9) ∧
    (removeWatermark ⟨4, 10, fun _ => 0⟩).data ((9 * 4 + 1) * 4 + 3) = 255 ∧
    (fun _ => (0 : ℕ)) ((9 * 4 + 1) * 4 + 3) ≠ 255 := by
  refine ⟨by norm_num [watermarkWidth], by norm_num [watermarkHeight], ?_, by decide⟩
  with_unfolding_all rfl

/-- Witness for C1 amended on a 4×20 image (rectangle 1×3 at (3,17)):
byte 0 is outside the rectangle and unchanged, dimensions kept. -/
theorem c1_outside_rect_witness :
    (removeWatermark ⟨4, 20, fun _ => 0⟩).data 0 = 0 ∧
    (removeWatermark ⟨4, 20, fun _ => 0⟩).width = 4 :=
  ⟨(c1_outside_rect_untouched 4 20 1 3 (by decide) (by decide)
      (by with_unfolding_all rfl) (by with_unfolding_all rfl) (fun _ => 0)).2.2 0 (by decide),
   (c1_outside_rect_untouched 4 20 1 3 (by decide) (by decide)
      (by with_unfolding_all rfl) (by with_unfolding_all rfl) (fun _ => 0)).1⟩

/-- C2 (amended): for whole-number rectangle dimensions, each rectangle
pixel `(row, col)` is filled from the mirrored source row
`sourceRow = max(0, rectTop − (row − rectTop) − 1)` by averaging the
channels over the 3×3 neighborhood centred at `(sourceRow, col)` restricted
to rows in `[0, rectTop)` and columns in `[0, W)`: when at least one
neighbor qualifies the RGB bytes receive the clamped
round-half-to-even `Uint8ClampedArray` conversion of the mean — not the
integer-truncated mean the original claim states — and the alpha byte 255;
when no neighbor qualifies the pixel is left unmodified. -/
theorem c2_fill_pixel_formula (W H wwN whN row col : ℕ)
    (hww : watermarkWidth W = (wwN : ℚ)) (hwh : watermarkHeight H = (whN : ℚ))
    (hrow : H - whN ≤ row) (hrowH : row < H) (hcol : W - wwN ≤ col) (hcolW : col < W)
    (d0 : ℕ → ℕ) (sR : ℤ) (hsR : sR = sourceRow (H - whN) row)
    (q : List (ℤ × ℤ)) (hq : q = qualNeighbors W (H - whN) sR col) :
    (0 < q.length →
      ((removeWatermark ⟨W, H, d0⟩).data ((row * W + col) * 4)
          = toUint8Clamp (some ((neighborSum W d0 sR col 0 q : ℚ) / (q.length : ℚ))) ∧
       (removeWatermark ⟨W, H, d0⟩).data ((row * W + col) * 4 + 1)
          = toUint8Clamp (some ((neighborSum W d0 sR col 1 q : ℚ) / (q.length : ℚ))) ∧
       (removeWatermark ⟨W, H, d0⟩).data ((row * W + col) * 4 + 2)
          = toUint8Clamp (some ((neighborSum W d0 sR col 2 q : ℚ) / (q.length : ℚ))) ∧
       (removeWatermark ⟨W, H, d0⟩).data ((row * W + col) * 4 + 3) = 255)) ∧
    (q.length = 0 → ∀ c, c < 4 →
      (removeWatermark ⟨W, H, d0⟩).data ((row * W + col) * 4 + c)
        = d0 ((row * W + col) * 4 + c)) := by
  subst hsR
  subst hq
  have heq := removeWatermark_data_eq W H wwN whN hww hwh d0
  have hbyte : ∀ c, c < 4 → (removeWatermark ⟨W, H, d0⟩).data ((row * W + col) * 4 + c)
      = pureVal W (H - whN) d0 ((row * W + col) * 4 + c) := by
    intro c hc
    rw [heq]
    unfold pureFill
    rw [if_pos]
    refine ⟨?_, ?_, ?_⟩
    · have hp := pixel_lt W H row col hrowH hcolW
      omega
    · rw [pixRow_mk W row col c hcolW hc]
      exact hrow
    · rw [pixCol_mk W row col c hcolW hc]
      exact hcol
  constructor
  · intro hlen
    refine ⟨?_, ?_, ?_, ?_⟩
    · rw [show (row * W + col) * 4 = (row * W + col) * 4 + 0 from by omega, hbyte 0 (by norm_num)]
      simp only [pureVal]
      rw [pixRow_mk W row col 0 hcolW (by norm_num), pixCol_mk W row col 0 hcolW (by norm_num),
        if_pos hlen, show ((row * W + col) * 4 + 0) % 4 = 0 from by omega,
        if_neg (show ¬ (0 : ℕ) = 3 from by omega)]
    · rw [hbyte 1 (by norm_num)]
      simp only [pureVal]
      rw [pixRow_mk W row col 1 hcolW (by norm_num), pixCol_mk W row col 1 hcolW (by norm_num),
        if_pos hlen, show ((row * W + col) * 4 + 1) % 4 = 1 from by omega,
        if_neg (show ¬ (1 : ℕ) = 3 from by omega)]
    · rw [hbyte 2 (by norm_num)]
      simp only [pureVal]
      rw [pixRow_mk W row col 2 hcolW (by norm_num), pixCol_mk W row col 2 hcolW (by norm_num),
        if_pos hlen, show ((row * W + col) * 4 + 2) % 4 = 2 from by omega,
        if_neg (show ¬ (2 : ℕ) = 3 from by omega)]
    · rw [hbyte 3 (by norm_num)]
      simp only [pureVal]
      rw [pixRow_mk W row col 3 hcolW (by norm_num), pixCol_mk W row col 3 hcolW (by norm_num),
        if_pos hlen, show ((row * W + col) * 4 + 3) % 4 = 3 from by omega,
        if_pos (show (3 : ℕ) = 3 from rfl)]
  · intro hlen c hc
    rw [hbyte c hc]
    simp only [pureVal]
    rw [pixRow_mk W row col c hcolW hc, pixCol_mk W row col c hcolW hc, if_neg (by omega)]

/-- C2 counterexample: in the 4×20 test image the rectangle pixel (17, 3)
averages red over the four qualifying neighbors to 6/4 = 1.5; the code
stores 2 (the `Uint8ClampedArray` round-half-to-even conversion), while the
claimed integer truncation `⌊6/4⌋` is 1. -/
theorem c2_truncation_counterexample :
    watermarkWidth 4 = (1 : ℚ) ∧ watermarkHeight 20 = (3 : ℚ) ∧
    neighborSum 4 c2Image.data 16 3 0 (qualNeighbors 4 17 16 3) = 6 ∧
    (qualNeighbors 4 17 16 3).length = 4 ∧
    (removeWatermark c2Image).data ((17 * 4 + 3) * 4) = 2 ∧
    (⌊(6 : ℚ) / 4⌋ = 1) ∧
    (removeWatermark c2Image).data ((17 * 4 + 3) * 4) ≠ 1 := by
  refine ⟨by with_unfolding_all rfl, by with_unfolding_all rfl, by decide, by decide,
    ?_, ?_, ?_⟩
  · with_unfolding_all rfl
  · with_unfolding_all rfl
  · exact of_decide_eq_true (by with_unfolding_all rfl)

/-- Witness for C2 amended at pixel (17, 3) of the all-zero 4×20 image:
the alpha byte of the filled pixel is 255. -/
theorem c2_fill_pixel_formula_witness :
    (removeWatermark ⟨4, 20, fun _ => 0⟩).data ((17 * 4 + 3) * 4 + 3) = 255 :=
  ((c2_fill_pixel_formula 4 20 1 3 17 3 (by with_unfolding_all rfl)
      (by with_unfolding_all rfl) (by decide) (by decide) (by decide) (by decide)
      (fun _ => 0) 16 (by decide) [(-1, -1), (-1, 0), (0, -1), (0, 0)]
      (by decide)).1 (by decide)).2.2.2

/-- C4 (amended): for whole-number rectangle dimensions, after the filler
runs every byte inside the rectangle with channel index 3 (the alpha
channel) is exactly 255. -/
theorem c4_alpha_fully_filled (W H wwN whN : ℕ) (hW : 2 ≤ W) (hH : 2 ≤ H)
    (hww : watermarkWidth W = (wwN : ℚ)) (hwh : watermarkHeight H = (whN : ℚ))
    (d0 : ℕ → ℕ) (n : ℕ)
    (hn : inRect W H (W - wwN) (H - whN) n) (hc : n % 4 = 3) :
    (removeWatermark ⟨W, H, d0⟩).data n = 255 := by
  have hwhH : whN < H := by
    have h := watermarkHeight_lt H (by omega)
    rw [hwh] at h
    exact_mod_cast h
  obtain ⟨hlen, hrow, hcol⟩ := hn
  have hW0 : 0 < W := by omega
  have hcolW : pixCol W n < W := by
    unfold pixCol
    exact Nat.mod_lt _ hW0
  have hpos := qual_center_pos W (H - whN) (pixCol W n) (pixRow W n) (by omega) hcolW hrow
  rw [removeWatermark_data_eq W H wwN whN hww hwh d0]
  unfold pureFill
  rw [if_pos ⟨hlen, hrow, hcol⟩]
  simp only [pureVal]
  rw [if_pos hpos, if_pos hc]

/-- C4 counterexample: the 5×10 all-zero image has rectangle start
(3.75, 8.5); every fill write lands at a non-integer typed-array index and
is silently dropped, so byte 199 — the alpha byte of pixel (9, 4), which
lies inside the computed rectangle — is still 0 after the filler runs.
(Behavior double-checked under IEEE-double JavaScript semantics.) -/
theorem c4_alpha_counterexample :
    ((5 : ℚ) - watermarkWidth 5 ≤ 4) ∧
    ((10 : ℚ) - watermarkHeight 10 ≤ 9) ∧
    (removeWatermark ⟨5, 10, fun _ => 0⟩).data ((9 * 5 + 4) * 4 + 3) = 0 ∧
    (removeWatermark ⟨5, 10, fun _ => 0⟩).data ((9 * 5 + 4) * 4 + 3) ≠ 255 := by
  refine ⟨by norm_num [watermarkWidth], by norm_num [watermarkHeight], ?_, ?_⟩
  · with_unfolding_all rfl
  · exact of_decide_eq_true (by with_unfolding_all rfl)

/-- Witness for C4 amended: the alpha byte 303 (pixel (18, 3)) of the
filled all-zero 4×20 image is 255. -/
theorem c4_alpha_witness :
    (removeWatermark ⟨4, 20, fun _ => 0⟩).data 303 = 255 :=
  c4_alpha_fully_filled 4 20 1 3 (by decide) (by decide) (by with_unfolding_all rfl)
    (by with_unfolding_all rfl) (fun _ => 0) 303 (by decide) (by decide)

/-- C10: for whole-number rectangle dimensions the in-place single-buffer
loop is extensionally equal to the pure two-buffer implementation
`pureFill`, which computes every byte from the original input buffer alone
and mentions no iteration order — so the result does not depend on the
order in which pixels are visited; moreover the rows strictly above the
rectangle top, the only rows the averaging samples from, are never
written. -/
theorem c10_inplace_is_pure (W H wwN whN : ℕ)
    (hww : watermarkWidth W = (wwN : ℚ)) (hwh : watermarkHeight H = (whN : ℚ))
    (d0 : ℕ → ℕ) :
    (removeWatermark ⟨W, H, d0⟩).data = pureFill W H (W - wwN) (H - whN) d0 ∧
    ∀ n, pixRow W n < H - whN → (removeWatermark ⟨W, H, d0⟩).data n = d0 n := by
  have h := removeWatermark_data_eq W H wwN whN hww hwh d0
  refine ⟨h, fun n hn => ?_⟩
  rw [h]
  unfold pureFill
  rw [if_neg]
  rintro ⟨-, hrow, -⟩
  omega

/-- Witness for C10 on the all-zero 4×20 image, with the pure fill
evaluated at the alpha byte 287 of rectangle pixel (17, 3). -/
theorem c10_inplace_is_pure_witness :
    (removeWatermark ⟨4, 20, fun _ => 0⟩).data = pureFill 4 20 3 17 (fun _ => 0) ∧
    pureFill 4 20 3 17 (fun _ => 0) 287 = 255 :=
  ⟨(c10_inplace_is_pure 4 20 1 3 (by with_unfolding_all rfl) (by with_unfolding_all rfl)
      (fun _ => 0)).1,
   by with_unfolding_all rfl⟩
